import Mathlib

/-!
Verification development for the LouvainMapEquation community-detection core
of NetworKit (include/networkit/community/LouvainMapEquation.hpp).

The header under src/ declares the class and carries three inline bodies
(idiv_ceil, chunk_bounds, convert_string_to_parallelization_type) and the
defaulted public constructor; those are embedded directly from the source.
The remaining member bodies live in LouvainMapEquation.cpp, which is not under
src/, so they are modelled from the specification (sections 3 through 5 and 8),
each such definition carrying a doc comment that says so.

Edge weights and the cut/volume statistics are C++ doubles; they are embedded
as exact rationals, matching the within-tolerance reading of the spec, except
in the fitness evaluator where a checked computation tracks the operations
that could produce an IEEE infinity or NaN.  The NetworKit integer aliases
node and count are modelled as natural numbers; their 64-bit typedefs are not
under src/ and the spec treats them as plain integers.
-/

namespace NetworKit

/-- Node identifiers of the external graph collaborator: dense integer ids. -/
abbrev node := Nat

/-- Embedding of the private enum ParallelizationType of LouvainMapEquation
(header line 22). -/
inductive ParallelizationType : Type
  | None
  | RelaxMap
  | Synchronous
deriving DecidableEq, Repr

/-- Embedding of convert_string_to_parallelization_type (header lines 121-132).
The thrown std::runtime_error is modelled as an Except.error carrying the
exception message, which names the invalid value. -/
def convert_string_to_parallelization_type (para_strat : String) :
    Except String ParallelizationType :=
  if para_strat = "none" then Except.ok ParallelizationType.None
  else if para_strat = "relaxmap" then Except.ok ParallelizationType.RelaxMap
  else if para_strat = "synchronous" then Except.ok ParallelizationType.Synchronous
  else Except.error ("Invalid parallelization type for map equation Louvain: " ++ para_strat)

/-- The configuration state the two constructors establish: the fields
hierarchical, maxIterations and parallelizationType of the class
(header lines 74-77). -/
structure LouvainMapEquationConfig : Type where
  hierarchical : Bool
  maxIterations : Nat
  parallelizationType : ParallelizationType
deriving DecidableEq, Repr

/-- Embedding of the public constructor (header lines 48-52): it converts the
strategy string and delegates to the private constructor; construction fails
exactly when the conversion throws.  The C++ default arguments are embedded as
Lean default arguments: hierarchical = false, maxIterations = 32,
parallelizationStrategy = "relaxmap".  The graph argument does not influence
the configuration and is left out of the configuration record. -/
def LouvainMapEquation_construct (hierarchical : Bool := false)
    (maxIterations : Nat := 32) (parallelizationStrategy : String := "relaxmap") :
    Except String LouvainMapEquationConfig :=
  (convert_string_to_parallelization_type parallelizationStrategy).map
    (fun pt =>
      { hierarchical := hierarchical
        maxIterations := maxIterations
        parallelizationType := pt })

/-- Embedding of idiv_ceil (header line 115). -/
def idiv_ceil (a b : Nat) : Nat := (a + b - 1) / b

/-- Embedding of chunk_bounds (header lines 117-119). -/
def chunk_bounds (i n chunk_size : Nat) : Nat × Nat :=
  (i * chunk_size, min n ((i + 1) * chunk_size))

/-- C3. For every string s passed as parallelizationStrategy: the three
recognized names select the corresponding parallelization type, and every
other string makes construction fail with an error message that names the
invalid value; no default is substituted. -/
theorem convert_string_ok_or_error :
    convert_string_to_parallelization_type "none" = Except.ok ParallelizationType.None ∧
    convert_string_to_parallelization_type "relaxmap" = Except.ok ParallelizationType.RelaxMap ∧
    convert_string_to_parallelization_type "synchronous"
        = Except.ok ParallelizationType.Synchronous ∧
    ∀ s : String, s ≠ "none" → s ≠ "relaxmap" → s ≠ "synchronous" →
      convert_string_to_parallelization_type s
        = Except.error ("Invalid parallelization type for map equation Louvain: " ++ s) := by
  refine ⟨rfl, rfl, rfl, ?_⟩
  intro s h1 h2 h3
  simp [convert_string_to_parallelization_type, h1, h2, h3]

/-- Witness for C3: construction with the invalid name "foo" fails with the
descriptive message. -/
theorem convert_string_ok_or_error_witness :
    convert_string_to_parallelization_type "foo"
      = Except.error ("Invalid parallelization type for map equation Louvain: " ++ "foo") :=
  convert_string_ok_or_error.2.2.2 "foo" (by decide) (by decide) (by decide)

/-- C9. The public constructor defaults are hierarchical = false,
maxIterations = 32 and parallelizationStrategy = "relaxmap": constructing with
only a graph succeeds and selects the RelaxMap parallelization type, not the
synchronous one. -/
theorem construct_defaults :
    LouvainMapEquation_construct
      = Except.ok
          { hierarchical := false
            maxIterations := 32
            parallelizationType := ParallelizationType.RelaxMap } ∧
    ParallelizationType.RelaxMap ≠ ParallelizationType.Synchronous := by
  exact ⟨rfl, by decide⟩

/-- A node x lies in chunk i: the half-open interval given by chunk_bounds. -/
def inChunk (i n chunk_size x : Nat) : Prop :=
  (chunk_bounds i n chunk_size).1 ≤ x ∧ x < (chunk_bounds i n chunk_size).2

instance (i n c x : Nat) : Decidable (inChunk i n c x) := by
  unfold inChunk
  infer_instance

/-- Membership in chunk i pins down i as the integer quotient x / b. -/
theorem inChunk_quotient (i n b x : Nat) (hb : 1 ≤ b) (h : inChunk i n b x) :
    x / b = i := by
  obtain ⟨h1, h2⟩ := h
  unfold chunk_bounds at h1 h2
  simp only at h1 h2
  have h2n : x < (i + 1) * b := lt_of_lt_of_le h2 (min_le_right _ _)
  have hlow : i ≤ x / b := (Nat.le_div_iff_mul_le hb).mpr h1
  have hhigh : x / b < i + 1 := (Nat.div_lt_iff_lt_mul hb).mpr h2n
  omega

/-- C10. For every node count n and chunk size b ≥ 1 the chunks
chunk_bounds i n b, for i below idiv_ceil n b, are half-open intervals that
cover exactly the node range and are pairwise disjoint: every node below n
lies in some chunk, every chunk element is a node below n, and no node lies
in two distinct chunks. -/
theorem chunk_bounds_partition_nodes (n b : Nat) (hb : 1 ≤ b) :
    (∀ x, x < n → ∃ i, i < idiv_ceil n b ∧ inChunk i n b x) ∧
    (∀ i x, inChunk i n b x → x < n) ∧
    (∀ i j x, inChunk i n b x → inChunk j n b x → i = j) := by
  refine ⟨?_, ?_, ?_⟩
  · intro x hx
    refine ⟨x / b, ?_, ?_, ?_⟩
    · have hn1 : 1 ≤ n := Nat.one_le_iff_ne_zero.mpr (by omega)
      have hle : x ≤ n - 1 := by omega
      have h1 : x / b ≤ (n - 1) / b := Nat.div_le_div_right hle
      have h2 : idiv_ceil n b = (n - 1) / b + 1 := by
        unfold idiv_ceil
        have : n + b - 1 = (n - 1) + b := by omega
        rw [this, Nat.add_div_right _ hb]
      omega
    · unfold chunk_bounds
      exact Nat.div_mul_le_self x b
    · unfold chunk_bounds
      simp only
      have hmod := Nat.div_add_mod x b
      have hmlt : x % b < b := Nat.mod_lt x hb
      refine lt_min hx ?_
      calc x = b * (x / b) + x % b := (Nat.div_add_mod x b).symm
        _ < b * (x / b) + b := by omega
        _ = (x / b + 1) * b := by ring
  · intro i x h
    have h2 := h.2
    unfold chunk_bounds at h2
    simp only at h2
    exact lt_of_lt_of_le h2 (min_le_left _ _)
  · intro i j x hi hj
    have hqi := inChunk_quotient i n b x hb hi
    have hqj := inChunk_quotient j n b x hb hj
    omega

/-- Witness for C10: with n = 7 nodes and chunk size b = 3 there are 3 chunks;
node 5 lies in some chunk, chunk elements are nodes, and chunk membership is
unique. -/
theorem chunk_bounds_partition_nodes_witness :
    (∃ i, i < idiv_ceil 7 3 ∧ inChunk i 7 3 5) ∧
    (∀ i, inChunk i 7 3 5 → (5 : Nat) < 7) ∧
    (∀ i j, inChunk i 7 3 5 → inChunk j 7 3 5 → i = j) := by
  have h := chunk_bounds_partition_nodes 7 3 (by decide)
  exact ⟨h.1 5 (by decide), fun i hi => h.2.1 i 5 hi, fun i j hi hj => h.2.2 i j 5 hi hj⟩

/-- Modelled from the spec: the weighted Graph collaborator (sections 3 and 6)
is external to this repository.  It provides node count, neighbor iteration
with edge weights, and self-loop weight; weighted degree is derived.  Per
section 4.2 neighbor lists exclude self-loops, which are handled separately as
loop weight.  Edges are undirected (symm) and neighbor ids stay inside the
dense node range (wf). -/
structure Graph : Type where
  n : Nat
  neighbors : node → List (node × ℚ)
  loopWeight : node → ℚ
  wf : ∀ v e, e ∈ neighbors v → e.1 < n
  symm : ∀ v w x, (w, x) ∈ neighbors v → (v, x) ∈ neighbors w

/-- Modelled from the spec: weighted degree of a node, the sum of the weights
of its non-loop incident edges (section 3). -/
def weightedDegree (g : Graph) (u : node) : ℚ :=
  ((g.neighbors u).map Prod.snd).sum

/-- Modelled from the spec: volume of a node, weighted degree plus twice the
self-loop weight (section 3). -/
def nodeVolume (g : Graph) (u : node) : ℚ :=
  weightedDegree g u + 2 * g.loopWeight u

/-- Modelled from the spec: TotalVolume computed directly from the graph, the
sum of all node volumes, a graph constant (section 3). -/
def graphTotalVolume (g : Graph) : ℚ :=
  Finset.sum (Finset.range g.n) (nodeVolume g)

/-- The mutable state of the algorithm object: the partition being built and
the incrementally maintained cluster statistics (header lines 79-80 declare
clusterCut, clusterVolume, totalCut, totalVolume; the partition is the result
member of the base class).  Dense arrays indexed by node id are modelled as
functions on node ids. -/
structure LMEState : Type where
  partition : node → node
  clusterCut : node → ℚ
  clusterVolume : node → ℚ
  totalCut : ℚ
  totalVolume : ℚ

/-- Embedding of the transient Move record (header lines 59-68). -/
structure Move : Type where
  movedNode : node
  volume : ℚ
  originCluster : node
  targetCluster : node
  cutUpdateToOriginCluster : ℚ
  cutUpdateToTargetCluster : ℚ
deriving DecidableEq

/-- Modelled from the spec: calculateInitialClusterCutAndVolume (section 4.1),
whose body is in LouvainMapEquation.cpp, not under src/.  Every node starts as
a singleton cluster with ClusterCut equal to its weighted degree and
ClusterVolume equal to its node volume; TotalCut and TotalVolume are the
corresponding graph-wide sums. -/
def calculateInitialClusterCutAndVolume (g : Graph) : LMEState where
  partition := fun u => u
  clusterCut := fun u => if u < g.n then weightedDegree g u else 0
  clusterVolume := fun u => if u < g.n then nodeVolume g u else 0
  totalCut := Finset.sum (Finset.range g.n) (weightedDegree g)
  totalVolume := graphTotalVolume g

/-- Modelled from the spec: applying one move to the Cluster Statistics Store
(section 4.1, performMove in the header, lines 96-97, body not under src/):
the origin and target cluster cuts change by the deltas the move carries, the
moved volume transfers from the origin cluster to the target cluster, the
partition reassigns the moved node, and TotalVolume is left untouched. -/
def performMove (s : LMEState) (m : Move) : LMEState where
  partition := fun v => if v = m.movedNode then m.targetCluster else s.partition v
  clusterCut := fun c =>
    if c = m.originCluster then s.clusterCut c + m.cutUpdateToOriginCluster
    else if c = m.targetCluster then s.clusterCut c + m.cutUpdateToTargetCluster
    else s.clusterCut c
  clusterVolume := fun c =>
    if c = m.originCluster then s.clusterVolume c - m.volume
    else if c = m.targetCluster then s.clusterVolume c + m.volume
    else s.clusterVolume c
  totalCut := s.totalCut + m.cutUpdateToOriginCluster + m.cutUpdateToTargetCluster
  totalVolume := s.totalVolume

/-- Modelled from the spec: one insertion into the sparse Neighbor-Weight
Accumulator (section 4.2), adding weight w under cluster key c. -/
def addWeight (acc : List (node × ℚ)) (c : node) (w : ℚ) : List (node × ℚ) :=
  match acc with
  | [] => [(c, w)]
  | (c', w') :: rest =>
      if c' = c then (c', w' + w) :: rest else (c', w') :: addWeight rest c w

/-- Modelled from the spec: the Neighbor-Weight Accumulator run over one node
(section 4.2): iterate the neighbors of u once, accumulating total edge weight
per distinct neighboring cluster; self-loops are excluded by the graph model. -/
def neighborClusterWeights (g : Graph) (part : node → node) (u : node) :
    List (node × ℚ) :=
  (g.neighbors u).foldl (fun acc e => addWeight acc (part e.1) e.2) []

/-- The fitness interface the Local-Moving Engine consumes (section 4.3): a
pure function of the state snapshot, the probed node, its degree and loop
weight, the two clusters, the accumulated edge weights to them, and the
current TotalCut.  The engine is parametric in it; none of the control-flow
claims depend on its numeric values. -/
abbrev Fitness :=
  LMEState → node → ℚ → ℚ → node → node → ℚ → ℚ → ℚ → ℚ

/-- Modelled from the spec: selection of the strictly best improving target
(section 4.4): scan the candidate entries, keeping the one with the lowest
score, ties broken by lowest cluster id. -/
def pickBest (score : node × ℚ → ℚ) :
    Option (node × ℚ) → List (node × ℚ) → Option (node × ℚ)
  | best, [] => best
  | none, e :: rest => pickBest score (some e) rest
  | some b, e :: rest =>
      if score e < score b ∨ (score e = score b ∧ e.1 < b.1) then
        pickBest score (some e) rest
      else
        pickBest score (some b) rest

/-- Modelled from the spec: tryLocalMove (header lines 93-94, body not under
src/).  Accumulate the neighbor-cluster weights of u, evaluate the no-move
baseline and every touched neighboring cluster other than the current one,
select the strictly best improving target, and emit the Move record carrying
the volume of u and the cut deltas applying it would produce; return none when
no candidate beats the baseline. -/
def tryLocalMove (g : Graph) (fit : Fitness) (s : LMEState) (u : node) :
    Option Move :=
  let nw := neighborClusterWeights g s.partition u
  let cur := s.partition u
  let deg := weightedDegree g u
  let loop := g.loopWeight u
  let wCur := ((nw.lookup cur).getD 0)
  let baseline := fit s u deg loop cur cur wCur wCur s.totalCut
  let cands := nw.filter (fun e => decide (e.1 ≠ cur))
  match pickBest (fun e => fit s u deg loop cur e.1 e.2 wCur s.totalCut) none cands with
  | some (t, wT) =>
      if fit s u deg loop cur t wT wCur s.totalCut < baseline then
        some
          { movedNode := u
            volume := nodeVolume g u
            originCluster := cur
            targetCluster := t
            cutUpdateToOriginCluster := 2 * wCur - deg
            cutUpdateToTargetCluster := deg - 2 * wT }
      else none
  | none => none

/-- Modelled from the spec: localMoving (header line 89, body not under src/),
one pass of the eagerly committing strategies (sections 4.4 and 5): process
the nodes in the given visitation order, committing each accepted move to the
shared statistics immediately via performMove; return the new state and the
number of applied moves.  The lock-based RelaxMap strategy applies exactly the
same commits under per-cluster locks, so in this sequential embedding it
coincides with the sequential strategy. -/
def localMoving (g : Graph) (fit : Fitness) (order : List node) (s : LMEState) :
    LMEState × Nat :=
  order.foldl
    (fun p u =>
      match tryLocalMove g fit p.1 u with
      | some m => (performMove p.1 m, p.2 + 1)
      | none => p)
    (s, 0)

/-- Modelled from the spec: the summed per-cluster cut delta of a batch of
moves (section 4.5). -/
def cutDelta (moves : List Move) (c : node) : ℚ :=
  (moves.map (fun m =>
    (if c = m.originCluster then m.cutUpdateToOriginCluster else 0) +
    (if c = m.targetCluster then m.cutUpdateToTargetCluster else 0))).sum

/-- Modelled from the spec: the summed per-cluster volume delta of a batch of
moves (section 4.5): each move transfers its volume from its origin cluster to
its target cluster. -/
def volumeDelta (moves : List Move) (c : node) : ℚ :=
  (moves.map (fun m =>
    (if c = m.targetCluster then m.volume else 0) -
    (if c = m.originCluster then m.volume else 0))).sum

/-- Modelled from the spec: aggregateAndApplyCutAndVolumeUpdates (header line
99, body not under src/): group the batched moves by cluster id, sum all cut
and volume deltas per cluster, and apply the summed deltas to the statistics
in one step; TotalVolume is left untouched (sections 4.5 and 5). -/
def aggregateAndApplyCutAndVolumeUpdates (s : LMEState) (moves : List Move) :
    LMEState where
  partition := s.partition
  clusterCut := fun c => s.clusterCut c + cutDelta moves c
  clusterVolume := fun c => s.clusterVolume c + volumeDelta moves c
  totalCut := s.totalCut
    + (moves.map (fun m => m.cutUpdateToOriginCluster + m.cutUpdateToTargetCluster)).sum
  totalVolume := s.totalVolume

/-- Modelled from the spec: the nextPartition updates of the stale-synchronous
strategy: each batched move reassigns its node to its target cluster. -/
def applyPartitionUpdates (part : node → node) (moves : List Move) :
    node → node :=
  moves.foldl
    (fun p m => fun v => if v = m.movedNode then m.targetCluster else p v) part

/-- Modelled from the spec: synchronousLocalMoving (header line 91, body not
under src/), one pass of the stale-synchronous strategy (section 4.4): every
node is evaluated against the one frozen snapshot taken at the start of the
pass, accepted Move records are batched, and the Move Aggregator applies all
cut, volume and partition updates in one synchronized step. -/
def synchronousLocalMoving (g : Graph) (fit : Fitness) (order : List node)
    (s : LMEState) : LMEState × Nat :=
  let moves := order.filterMap (fun u => tryLocalMove g fit s u)
  ({ aggregateAndApplyCutAndVolumeUpdates s moves with
      partition := applyPartitionUpdates s.partition moves },
    moves.length)

/-- One local-moving pass under the selected parallelization strategy: the
stale-synchronous strategy defers its updates, the other two commit eagerly
(section 4.4). -/
def onePass (g : Graph) (fit : Fitness) (pt : ParallelizationType)
    (order : List node) (s : LMEState) : LMEState × Nat :=
  match pt with
  | ParallelizationType.Synchronous => synchronousLocalMoving g fit order s
  | _ => localMoving g fit order s

/-- Modelled from the spec: the iteration loop of run (header line 54, body
not under src/): perform local-moving passes until a pass applies zero moves
or the iteration budget is exhausted (sections 4.4 and 8).  Besides the final
state it returns the trace of per-pass applied-move counts, one entry per
executed pass. -/
def runLocalMoving (g : Graph) (fit : Fitness) (pt : ParallelizationType)
    (order : List node) : Nat → LMEState → LMEState × List Nat
  | 0, s => (s, [])
  | Nat.succ k, s =>
      let p := onePass g fit pt order s
      if p.2 = 0 then (p.1, [0])
      else
        let q := runLocalMoving g fit pt order k p.1
        (q.1, p.2 :: q.2)

/-- Modelled from the spec: one flat run of the pipeline (section 2): initial
statistics, then local-moving passes up to quiescence or the maxIterations
cap.  The hierarchical flag defaults to off and coarsening is outside the
claims considered here. -/
def louvainRun (g : Graph) (fit : Fitness) (pt : ParallelizationType)
    (order : List node) (maxIterations : Nat) : LMEState :=
  (runLocalMoving g fit pt order maxIterations
    (calculateInitialClusterCutAndVolume g)).1

/-- A trivial fitness function used by concrete witnesses: every candidate
scores zero, so no move is ever strictly improving. -/
def zeroFitness : Fitness := fun _ _ _ _ _ _ _ _ _ => 0

/-- A concrete two-node edgeless graph used by concrete witnesses. -/
def emptyGraph : Graph where
  n := 2
  neighbors := fun _ => []
  loopWeight := fun _ => 0
  wf := by
    intro v e h
    simp at h
  symm := by
    intro v w x h
    simp at h

/-- A concrete three-node graph with a single edge between nodes 0 and 1 of
weight one; node 2 is isolated.  Used by concrete witnesses. -/
def twoPathGraph : Graph where
  n := 3
  neighbors := fun v => if v = 0 then [(1, 1)] else if v = 1 then [(0, 1)] else []
  loopWeight := fun _ => 0
  wf := by
    intro v e h
    by_cases h0 : v = 0
    · simp [h0] at h
      subst h
      decide
    · by_cases h1 : v = 1
      · simp [h0, h1] at h
        subst h
        decide
      · simp [h0, h1] at h
  symm := by
    intro v w x h
    by_cases h0 : v = 0
    · simp [h0] at h
      simp [h.1, h.2, h0]
    · by_cases h1 : v = 1
      · simp [h0, h1] at h
        simp [h.1, h.2, h1]
      · simp [h0, h1] at h

/-- C4. For every graph, every fitness function, every one of the three
parallelization strategies and every visitation order, running with
maxIterations = 0 produces the singleton partition: every node is its own
cluster. -/
theorem run_zero_iterations_singleton (g : Graph) (fit : Fitness)
    (pt : ParallelizationType) (order : List node) :
    ∀ u, (louvainRun g fit pt order 0).partition u = u :=
  fun _ => rfl

/-- C8. The sequential strategy is a deterministic function of the graph, the
fitness evaluator and the fixed visitation order: any two runs on the same
inputs produce identical resulting states (partition and statistics). -/
theorem sequential_run_deterministic (g : Graph) (fit : Fitness)
    (order : List node) (maxIterations : Nat) (r1 r2 : LMEState)
    (h1 : r1 = louvainRun g fit ParallelizationType.None order maxIterations)
    (h2 : r2 = louvainRun g fit ParallelizationType.None order maxIterations) :
    r1 = r2 :=
  h1.trans h2.symm

/-- Witness for C8: two concrete sequential runs on the same concrete graph
and order coincide. -/
theorem sequential_run_deterministic_witness :
    louvainRun twoPathGraph zeroFitness ParallelizationType.None [0, 1, 2] 4
      = louvainRun twoPathGraph zeroFitness ParallelizationType.None [0, 1, 2] 4 :=
  sequential_run_deterministic twoPathGraph zeroFitness [0, 1, 2] 4 _ _ rfl rfl

/-- The flatten of permuted lists of lists is a permutation of the original
flatten. -/
theorem flatten_perm_of_perm {α : Type} {l1 l2 : List (List α)}
    (h : l1.Perm l2) : l1.flatten.Perm l2.flatten := by
  induction h with
  | nil => exact List.Perm.refl _
  | cons x _ ih =>
      simp only [List.flatten_cons]
      exact ih.append_left x
  | swap x y l =>
      simp only [List.flatten_cons]
      rw [← List.append_assoc, ← List.append_assoc]
      exact List.perm_append_comm.append_right l.flatten
  | trans _ _ ih1 ih2 => exact ih1.trans ih2

/-- C2. For the stale-synchronous strategy, permuting the order in which the
per-worker move lists are concatenated before aggregation yields identical
resulting ClusterCut and ClusterVolume arrays after
aggregateAndApplyCutAndVolumeUpdates. -/
theorem aggregate_order_independent (s : LMEState)
    (ls1 ls2 : List (List Move)) (h : ls1.Perm ls2) :
    (aggregateAndApplyCutAndVolumeUpdates s ls1.flatten).clusterCut
      = (aggregateAndApplyCutAndVolumeUpdates s ls2.flatten).clusterCut ∧
    (aggregateAndApplyCutAndVolumeUpdates s ls1.flatten).clusterVolume
      = (aggregateAndApplyCutAndVolumeUpdates s ls2.flatten).clusterVolume := by
  have hp : ls1.flatten.Perm ls2.flatten := flatten_perm_of_perm h
  constructor
  · funext c
    simp only [aggregateAndApplyCutAndVolumeUpdates, cutDelta]
    rw [(hp.map _).sum_eq]
  · funext c
    simp only [aggregateAndApplyCutAndVolumeUpdates, volumeDelta]
    rw [(hp.map _).sum_eq]

/-- A concrete state used by the aggregation witness. -/
def flatState : LMEState where
  partition := fun u => u
  clusterCut := fun _ => 0
  clusterVolume := fun _ => 0
  totalCut := 0
  totalVolume := 0

/-- A concrete move used by the aggregation witness. -/
def moveA : Move where
  movedNode := 0
  volume := 1
  originCluster := 0
  targetCluster := 1
  cutUpdateToOriginCluster := -1
  cutUpdateToTargetCluster := 1

/-- A second concrete move used by the aggregation witness. -/
def moveB : Move where
  movedNode := 2
  volume := 2
  originCluster := 2
  targetCluster := 1
  cutUpdateToOriginCluster := -2
  cutUpdateToTargetCluster := 2

/-- Witness for C2: swapping two concrete one-move worker lists leaves the
aggregated ClusterCut and ClusterVolume arrays unchanged. -/
theorem aggregate_order_independent_witness :
    (aggregateAndApplyCutAndVolumeUpdates flatState ([[moveA], [moveB]]).flatten).clusterCut
      = (aggregateAndApplyCutAndVolumeUpdates flatState ([[moveB], [moveA]]).flatten).clusterCut ∧
    (aggregateAndApplyCutAndVolumeUpdates flatState ([[moveA], [moveB]]).flatten).clusterVolume
      = (aggregateAndApplyCutAndVolumeUpdates flatState ([[moveB], [moveA]]).flatten).clusterVolume :=
  aggregate_order_independent flatState [[moveA], [moveB]] [[moveB], [moveA]]
    (List.Perm.swap [moveB] [moveA] [])

/-- C6. Stopping discipline of the local-moving engine: the trace of executed
passes is at most maxIterations long; every pass except possibly the last
applied at least one move, so the engine never continues past a quiescent pass
and stops as soon as one occurs; and if fewer than maxIterations passes ran,
then a quiescent pass (zero applied moves) occurred, so no stopping condition
other than quiescence and the iteration cap exists. -/
theorem localMoving_stopping (g : Graph) (fit : Fitness)
    (pt : ParallelizationType) (order : List node) (maxIterations : Nat)
    (s : LMEState) :
    ((runLocalMoving g fit pt order maxIterations s).2).length ≤ maxIterations ∧
    (∀ i (h : i + 1 < ((runLocalMoving g fit pt order maxIterations s).2).length),
      ((runLocalMoving g fit pt order maxIterations s).2).get
        ⟨i, Nat.lt_of_succ_lt h⟩ ≠ 0) ∧
    (((runLocalMoving g fit pt order maxIterations s).2).length < maxIterations →
      0 ∈ (runLocalMoving g fit pt order maxIterations s).2) := by
  induction maxIterations generalizing s with
  | zero =>
      refine ⟨Nat.le_refl 0, ?_, ?_⟩
      · intro i h
        simp [runLocalMoving] at h
      · intro h
        simp [runLocalMoving] at h
  | succ k ih =>
      by_cases hq : (onePass g fit pt order s).2 = 0
      · have hrun : runLocalMoving g fit pt order (k + 1) s
            = ((onePass g fit pt order s).1, [0]) := by
          simp [runLocalMoving, hq]
        rw [hrun]
        refine ⟨by simp, ?_, ?_⟩
        · intro i h
          simp only [List.length_singleton] at h
          omega
        · intro _
          simp
      · have hrun : runLocalMoving g fit pt order (k + 1) s
            = ((runLocalMoving g fit pt order k (onePass g fit pt order s).1).1,
               (onePass g fit pt order s).2
                 :: (runLocalMoving g fit pt order k (onePass g fit pt order s).1).2) := by
          simp [runLocalMoving, hq]
        rw [hrun]
        obtain ⟨ih1, ih2, ih3⟩ := ih (onePass g fit pt order s).1
        refine ⟨?_, ?_, ?_⟩
        · simp only [List.length_cons]
          omega
        · intro i h
          cases i with
          | zero => simpa using hq
          | succ j =>
              simp only [List.length_cons] at h
              have hj : j + 1
                  < (runLocalMoving g fit pt order k (onePass g fit pt order s).1).2.length := by
                omega
              simpa using ih2 j hj
        · intro h
          simp only [List.length_cons] at h
          exact List.mem_cons_of_mem _ (ih3 (by omega))

/-- Witness for C6: on a concrete graph with an empty visitation order the
first pass is quiescent, so the trace records a quiescent pass well before the
iteration cap of 5. -/
theorem localMoving_stopping_witness :
    (0 : Nat) ∈ (runLocalMoving emptyGraph zeroFitness ParallelizationType.None
      [] 5 (calculateInitialClusterCutAndVolume emptyGraph)).2 :=
  (localMoving_stopping emptyGraph zeroFitness ParallelizationType.None [] 5
    (calculateInitialClusterCutAndVolume emptyGraph)).2.2 (by decide)

/-- Whatever pickBest returns was among the scanned candidates or was the
running best it started from. -/
theorem pickBest_mem (score : node × ℚ → ℚ) :
    ∀ (l : List (node × ℚ)) (b : Option (node × ℚ)) (e : node × ℚ),
      pickBest score b l = some e → e ∈ l ∨ b = some e := by
  intro l
  induction l with
  | nil =>
      intro b e h
      right
      simpa [pickBest] using h
  | cons hd tl ih =>
      intro b e h
      cases b with
      | none =>
          simp only [pickBest] at h
          rcases ih (some hd) e h with h1 | h2
          · exact Or.inl (List.mem_cons_of_mem _ h1)
          · have he : hd = e := Option.some.inj h2
            exact Or.inl (he ▸ List.mem_cons_self hd tl)
      | some b0 =>
          simp only [pickBest] at h
          split at h
          · rcases ih (some hd) e h with h1 | h2
            · exact Or.inl (List.mem_cons_of_mem _ h1)
            · have he : hd = e := Option.some.inj h2
              exact Or.inl (he ▸ List.mem_cons_self hd tl)
          · rcases ih (some b0) e h with h1 | h2
            · exact Or.inl (List.mem_cons_of_mem _ h1)
            · exact Or.inr h2

/-- Every key of the accumulator after one insertion is the inserted cluster
key or a key that was already present. -/
theorem addWeight_fst_mem (c : node) (w : ℚ) :
    ∀ (acc : List (node × ℚ)) (e : node × ℚ), e ∈ addWeight acc c w →
      e.1 = c ∨ e.1 ∈ acc.map Prod.fst := by
  intro acc
  induction acc with
  | nil =>
      intro e he
      simp [addWeight] at he
      left
      rw [he]
  | cons hd tl ih =>
      intro e he
      obtain ⟨c', w'⟩ := hd
      simp only [addWeight] at he
      split at he
      · rename_i hc
        rcases List.mem_cons.mp he with h1 | h2
        · left
          rw [h1]
          exact hc
        · right
          simp only [List.map_cons, List.mem_cons]
          exact Or.inr (List.mem_map_of_mem Prod.fst h2)
      · rcases List.mem_cons.mp he with h1 | h2
        · right
          rw [h1]
          simp
        · rcases ih e h2 with h3 | h4
          · exact Or.inl h3
          · right
            simp only [List.map_cons, List.mem_cons]
            exact Or.inr h4

/-- Every key accumulated by the Neighbor-Weight Accumulator fold is a
starting key or the cluster of one of the iterated neighbors. -/
theorem foldl_addWeight_fst_mem (part : node → node) :
    ∀ (l : List (node × ℚ)) (acc : List (node × ℚ)) (e : node × ℚ),
      e ∈ l.foldl (fun a p => addWeight a (part p.1) p.2) acc →
      e.1 ∈ acc.map Prod.fst ∨ ∃ p ∈ l, part p.1 = e.1 := by
  intro l
  induction l with
  | nil =>
      intro acc e he
      simp only [List.foldl_nil] at he
      exact Or.inl (List.mem_map_of_mem Prod.fst he)
  | cons hd tl ih =>
      intro acc e he
      simp only [List.foldl_cons] at he
      rcases ih (addWeight acc (part hd.1) hd.2) e he with h1 | h2
      · obtain ⟨a, ha, hae⟩ := List.mem_map.mp h1
        rcases addWeight_fst_mem (part hd.1) hd.2 acc a ha with h3 | h4
        · right
          exact ⟨hd, List.mem_cons_self hd tl, by rw [← hae, h3]⟩
        · left
          rw [← hae]
          exact h4
      · obtain ⟨p, hp, hpe⟩ := h2
        exact Or.inr ⟨p, List.mem_cons_of_mem hd hp, hpe⟩

/-- Every cluster key the accumulator reports for node u is the current
cluster of one of the neighbors of u. -/
theorem neighborClusterWeights_fst (g : Graph) (part : node → node) (u : node)
    (e : node × ℚ) (he : e ∈ neighborClusterWeights g part u) :
    ∃ p ∈ g.neighbors u, part p.1 = e.1 := by
  rcases foldl_addWeight_fst_mem part (g.neighbors u) [] e he with h1 | h2
  · simp at h1
  · exact h2

/-- Shape of every move tryLocalMove emits: it moves the probed node, carries
its node volume, originates at its current cluster, and targets the current
cluster of one of its neighbors, distinct from the origin. -/
theorem tryLocalMove_spec (g : Graph) (fit : Fitness) (s : LMEState) (u : node)
    (m : Move) (h : tryLocalMove g fit s u = some m) :
    m.movedNode = u ∧ m.volume = nodeVolume g u ∧
    m.originCluster = s.partition u ∧ m.targetCluster ≠ s.partition u ∧
    ∃ p ∈ g.neighbors u, s.partition p.1 = m.targetCluster := by
  simp only [tryLocalMove] at h
  split at h
  · rename_i t wT heq
    split at h
    · have hm := Option.some.inj h
      subst hm
      have hmem := pickBest_mem _ _ none (t, wT) heq
      rcases hmem with hin | habs
      · have hfil := List.mem_filter.mp hin
        have hne : t ≠ s.partition u := by
          have := hfil.2
          simpa using this
        obtain ⟨p, hp, hpe⟩ := neighborClusterWeights_fst g s.partition u (t, wT) hfil.1
        exact ⟨rfl, rfl, rfl, hne, p, hp, hpe⟩
      · exact absurd habs (by simp)
    · exact absurd h (by simp)
  · exact absurd h (by simp)

/-- A node with no incident edges never produces a move: its accumulator is
empty, so there is no candidate target. -/
theorem tryLocalMove_isolated (g : Graph) (fit : Fitness) (s : LMEState)
    (u : node) (hu : g.neighbors u = []) :
    tryLocalMove g fit s u = none := by
  have hnw : neighborClusterWeights g s.partition u = [] := by
    simp [neighborClusterWeights, hu]
  simp [tryLocalMove, hnw, pickBest]

/-- Node u is alone in its own singleton cluster under the given partition:
it is assigned to cluster u and no other node is. -/
def isolatedSingleton (u : node) (part : node → node) : Prop :=
  part u = u ∧ ∀ v, part v = u → v = u

/-- While u is alone in cluster u, no accepted move of any node touches u:
the moved node is never u (u has no candidate targets) and the target cluster
is never u (cluster u is not the cluster of any neighbor of any node, because
u has no incident edges). -/
theorem move_avoids_isolated (g : Graph) (fit : Fitness) (s : LMEState)
    (u v : node) (m : Move) (hu : g.neighbors u = [])
    (hinv : isolatedSingleton u s.partition)
    (hm : tryLocalMove g fit s v = some m) :
    m.movedNode ≠ u ∧ m.targetCluster ≠ u := by
  obtain ⟨hmn, _, _, _, p, hp, hpe⟩ := tryLocalMove_spec g fit s v m hm
  constructor
  · intro hvu
    rw [hmn] at hvu
    subst hvu
    rw [tryLocalMove_isolated g fit s v hu] at hm
    exact absurd hm (by simp)
  · intro htu
    have hpu : p.1 = u := hinv.2 p.1 (by rw [hpe, htu])
    have hvp : (v, p.2) ∈ g.neighbors p.1 := by
      refine g.symm v p.1 p.2 ?_
      rw [Prod.mk.eta]
      exact hp
    rw [hpu, hu] at hvp
    exact absurd hvp (by simp)

/-- Reassigning a node other than u to a cluster other than u keeps u alone
in cluster u. -/
theorem isolatedSingleton_update (u : node) (part : node → node) (m : Move)
    (hp : isolatedSingleton u part) (hmn : m.movedNode ≠ u)
    (htc : m.targetCluster ≠ u) :
    isolatedSingleton u
      (fun v => if v = m.movedNode then m.targetCluster else part v) := by
  constructor
  · have : ¬ u = m.movedNode := fun h => hmn h.symm
    simp only [this, if_false]
    exact hp.1
  · intro v hv
    by_cases hvm : v = m.movedNode
    · simp only [hvm, if_true] at hv
      exact absurd hv htc
    · simp only [hvm, if_false] at hv
      exact hp.2 v hv

/-- The deferred partition updates of a batch of moves that all avoid u keep
u alone in cluster u. -/
theorem isolatedSingleton_applyPartitionUpdates (u : node) :
    ∀ (moves : List Move) (part : node → node),
      isolatedSingleton u part →
      (∀ m ∈ moves, m.movedNode ≠ u ∧ m.targetCluster ≠ u) →
      isolatedSingleton u (applyPartitionUpdates part moves) := by
  intro moves
  induction moves with
  | nil =>
      intro part hp _
      simpa [applyPartitionUpdates] using hp
  | cons m ms ih =>
      intro part hp hmv
      have hm := hmv m (List.mem_cons_self m ms)
      simp only [applyPartitionUpdates, List.foldl_cons]
      exact ih (fun v => if v = m.movedNode then m.targetCluster else part v)
        (isolatedSingleton_update u part m hp hm.1 hm.2)
        (fun m2 hm2 => hmv m2 (List.mem_cons_of_mem m hm2))

/-- The eagerly committing pass fold keeps u alone in cluster u. -/
theorem isolatedSingleton_foldl (g : Graph) (fit : Fitness) (u : node)
    (hu : g.neighbors u = []) :
    ∀ (order : List node) (p : LMEState × Nat),
      isolatedSingleton u p.1.partition →
      isolatedSingleton u
        ((order.foldl
          (fun p u =>
            match tryLocalMove g fit p.1 u with
            | some m => (performMove p.1 m, p.2 + 1)
            | none => p) p).1).partition := by
  intro order
  induction order with
  | nil =>
      intro p hp
      simpa using hp
  | cons v rest ih =>
      intro p hp
      simp only [List.foldl_cons]
      apply ih
      cases hm : tryLocalMove g fit p.1 v with
      | none => simpa [hm] using hp
      | some m =>
          simp only [hm]
          have hav := move_avoids_isolated g fit p.1 u v m hu hp hm
          exact isolatedSingleton_update u p.1.partition m hp hav.1 hav.2

/-- One pass of any strategy keeps u alone in cluster u. -/
theorem isolatedSingleton_onePass (g : Graph) (fit : Fitness)
    (pt : ParallelizationType) (order : List node) (u : node)
    (hu : g.neighbors u = []) (s : LMEState)
    (hp : isolatedSingleton u s.partition) :
    isolatedSingleton u ((onePass g fit pt order s).1).partition := by
  cases pt with
  | Synchronous =>
      show isolatedSingleton u (applyPartitionUpdates s.partition
        (order.filterMap (fun v => tryLocalMove g fit s v)))
      refine isolatedSingleton_applyPartitionUpdates u _ s.partition hp ?_
      intro m hm
      obtain ⟨v, _, hv⟩ := List.mem_filterMap.mp hm
      exact move_avoids_isolated g fit s u v m hu hp hv
  | None => exact isolatedSingleton_foldl g fit u hu order (s, 0) hp
  | RelaxMap => exact isolatedSingleton_foldl g fit u hu order (s, 0) hp

/-- The whole pass loop keeps u alone in cluster u. -/
theorem isolatedSingleton_runLocalMoving (g : Graph) (fit : Fitness)
    (pt : ParallelizationType) (order : List node) (u : node)
    (hu : g.neighbors u = []) :
    ∀ (k : Nat) (s : LMEState), isolatedSingleton u s.partition →
      isolatedSingleton u ((runLocalMoving g fit pt order k s).1).partition := by
  intro k
  induction k with
  | zero =>
      intro s hp
      simpa [runLocalMoving] using hp
  | succ k2 ih =>
      intro s hp
      have hstep := isolatedSingleton_onePass g fit pt order u hu s hp
      by_cases hq : (onePass g fit pt order s).2 = 0
      · simpa [runLocalMoving, hq] using hstep
      · have : runLocalMoving g fit pt order (k2 + 1) s
            = ((runLocalMoving g fit pt order k2 (onePass g fit pt order s).1).1,
               (onePass g fit pt order s).2
                 :: (runLocalMoving g fit pt order k2 (onePass g fit pt order s).1).2) := by
          simp [runLocalMoving, hq]
        rw [this]
        exact ih (onePass g fit pt order s).1 hstep

/-- C5. A node u with zero degree (no incident edges) and zero self-loop
weight stays in its own singleton cluster after any number of local-moving
passes, under every strategy: the final partition assigns u to cluster u and
assigns no other node to cluster u. -/
theorem isolated_node_stays_singleton (g : Graph) (fit : Fitness)
    (pt : ParallelizationType) (order : List node) (maxIterations : Nat)
    (u : node) (hdeg : g.neighbors u = []) (_hloop : g.loopWeight u = 0) :
    (louvainRun g fit pt order maxIterations).partition u = u ∧
    ∀ v, (louvainRun g fit pt order maxIterations).partition v = u → v = u := by
  have hinit : isolatedSingleton u (calculateInitialClusterCutAndVolume g).partition :=
    ⟨rfl, fun _ hv => hv⟩
  exact isolatedSingleton_runLocalMoving g fit pt order u hdeg maxIterations
    (calculateInitialClusterCutAndVolume g) hinit

/-- Witness for C5: in the concrete three-node graph the isolated node 2
stays alone in cluster 2 after a stale-synchronous run. -/
theorem isolated_node_stays_singleton_witness :
    (louvainRun twoPathGraph zeroFitness ParallelizationType.Synchronous
      [0, 1, 2] 3).partition 2 = 2 ∧
    ∀ v, (louvainRun twoPathGraph zeroFitness ParallelizationType.Synchronous
      [0, 1, 2] 3).partition v = 2 → v = 2 :=
  isolated_node_stays_singleton twoPathGraph zeroFitness
    ParallelizationType.Synchronous [0, 1, 2] 3 2 rfl rfl

/-- The partition maps the dense node range into itself (cluster ids reuse
node id space). -/
def partitionInRange (g : Graph) (s : LMEState) : Prop :=
  ∀ v, v < g.n → s.partition v < g.n

/-- States the engine can reach: the initialized state, the state after any
single applied move of the eagerly committing strategies, and the state after
any aggregated stale-synchronous pass over in-range nodes. -/
inductive Reachable (g : Graph) (fit : Fitness) : LMEState → Prop
  | init : Reachable g fit (calculateInitialClusterCutAndVolume g)
  | moveStep : ∀ (s : LMEState) (u : node) (m : Move), Reachable g fit s →
      u < g.n → tryLocalMove g fit s u = some m →
      Reachable g fit (performMove s m)
  | syncStep : ∀ (s : LMEState) (order : List node), Reachable g fit s →
      (∀ u ∈ order, u < g.n) →
      Reachable g fit (synchronousLocalMoving g fit order s).1

/-- Every move tryLocalMove emits on an in-range node of an in-range
partition has in-range and distinct origin and target clusters. -/
theorem tryLocalMove_valid (g : Graph) (fit : Fitness) (s : LMEState)
    (u : node) (m : Move) (hu : u < g.n) (hpr : partitionInRange g s)
    (hm : tryLocalMove g fit s u = some m) :
    m.originCluster < g.n ∧ m.targetCluster < g.n ∧
    m.originCluster ≠ m.targetCluster := by
  obtain ⟨_, _, horig, hne, p, hp, hpe⟩ := tryLocalMove_spec g fit s u m hm
  refine ⟨?_, ?_, ?_⟩
  · rw [horig]
    exact hpr u hu
  · rw [← hpe]
    exact hpr p.1 (g.wf u p hp)
  · rw [horig]
    exact fun h => hne h.symm

/-- Applying one move with distinct in-range clusters transfers volume inside
the summation range, so the cluster-volume sum is unchanged. -/
theorem sum_clusterVolume_performMove (g : Graph) (s : LMEState) (m : Move)
    (ho : m.originCluster < g.n) (ht : m.targetCluster < g.n)
    (hne : m.originCluster ≠ m.targetCluster) :
    Finset.sum (Finset.range g.n) (performMove s m).clusterVolume
      = Finset.sum (Finset.range g.n) s.clusterVolume := by
  have hfun : ∀ c, (performMove s m).clusterVolume c
      = s.clusterVolume c + ((if c = m.originCluster then -m.volume else 0)
        + (if c = m.targetCluster then m.volume else 0)) := by
    intro c
    simp only [performMove]
    by_cases h1 : c = m.originCluster
    · have h2 : ¬ c = m.targetCluster := by
        rw [h1]
        exact hne
      rw [if_pos h1, if_pos h1, if_neg h2]
      ring
    · rw [if_neg h1, if_neg h1]
      by_cases h2 : c = m.targetCluster
      · rw [if_pos h2, if_pos h2]
        ring
      · rw [if_neg h2, if_neg h2]
        ring
  rw [Finset.sum_congr rfl (fun c _ => hfun c), Finset.sum_add_distrib,
    Finset.sum_add_distrib,
    Finset.sum_ite_eq' (Finset.range g.n) m.originCluster (fun _ => -m.volume),
    Finset.sum_ite_eq' (Finset.range g.n) m.targetCluster (fun _ => m.volume)]
  simp [Finset.mem_range.mpr ho, Finset.mem_range.mpr ht]

/-- The summed per-cluster volume deltas of a batch of moves with in-range
clusters cancel over the node range: each move only transfers volume. -/
theorem sum_volumeDelta_eq_zero (g : Graph) :
    ∀ (moves : List Move),
      (∀ m ∈ moves, m.originCluster < g.n ∧ m.targetCluster < g.n) →
      Finset.sum (Finset.range g.n) (volumeDelta moves) = 0 := by
  intro moves
  induction moves with
  | nil =>
      intro _
      simp [volumeDelta]
  | cons m ms ih =>
      intro hv
      have hvd : ∀ c, volumeDelta (m :: ms) c
          = ((if c = m.targetCluster then m.volume else 0)
            - (if c = m.originCluster then m.volume else 0)) + volumeDelta ms c := by
        intro c
        simp [volumeDelta]
      have hm := hv m (List.mem_cons_self m ms)
      rw [Finset.sum_congr rfl (fun c _ => hvd c), Finset.sum_add_distrib,
        ih (fun m2 h2 => hv m2 (List.mem_cons_of_mem m h2)),
        Finset.sum_sub_distrib,
        Finset.sum_ite_eq' (Finset.range g.n) m.targetCluster (fun _ => m.volume),
        Finset.sum_ite_eq' (Finset.range g.n) m.originCluster (fun _ => m.volume)]
      simp [Finset.mem_range.mpr hm.1, Finset.mem_range.mpr hm.2]

/-- performMove keeps the partition in range when the target cluster is. -/
theorem partitionInRange_performMove (g : Graph) (s : LMEState) (m : Move)
    (hpr : partitionInRange g s) (ht : m.targetCluster < g.n) :
    partitionInRange g (performMove s m) := by
  intro v hv
  simp only [performMove]
  by_cases h : v = m.movedNode
  · rw [if_pos h]
    exact ht
  · rw [if_neg h]
    exact hpr v hv

/-- The deferred partition updates keep the partition in range when every
target cluster is. -/
theorem partitionInRange_applyPartitionUpdates (g : Graph) :
    ∀ (moves : List Move) (part : node → node),
      (∀ v, v < g.n → part v < g.n) →
      (∀ m ∈ moves, m.targetCluster < g.n) →
      ∀ v, v < g.n → applyPartitionUpdates part moves v < g.n := by
  intro moves
  induction moves with
  | nil =>
      intro part hp _ v hv
      simpa [applyPartitionUpdates] using hp v hv
  | cons m ms ih =>
      intro part hp hmv v hv
      have hm := hmv m (List.mem_cons_self m ms)
      simp only [applyPartitionUpdates, List.foldl_cons]
      refine ih (fun w => if w = m.movedNode then m.targetCluster else part w)
        ?_ (fun m2 h2 => hmv m2 (List.mem_cons_of_mem m h2)) v hv
      intro w hw
      by_cases hwm : w = m.movedNode
      · simpa [hwm] using hm
      · simpa [hwm] using hp w hw

/-- The combined engine invariant: in-range partition, cluster-volume sum
equal to the maintained TotalVolume, and TotalVolume equal to the graph
constant. -/
def GoodState (g : Graph) (s : LMEState) : Prop :=
  partitionInRange g s ∧
  Finset.sum (Finset.range g.n) s.clusterVolume = s.totalVolume ∧
  s.totalVolume = graphTotalVolume g

/-- Every reachable state satisfies the combined engine invariant. -/
theorem reachable_goodState (g : Graph) (fit : Fitness) :
    ∀ s, Reachable g fit s → GoodState g s := by
  intro s h
  induction h with
  | init =>
      refine ⟨fun v hv => hv, ?_, rfl⟩
      show Finset.sum (Finset.range g.n)
        (fun u => if u < g.n then nodeVolume g u else 0) = graphTotalVolume g
      unfold graphTotalVolume
      apply Finset.sum_congr rfl
      intro c hc
      rw [if_pos (Finset.mem_range.mp hc)]
  | moveStep s2 u m _ hu hm ih =>
      obtain ⟨hpr, hsum, htot⟩ := ih
      have hval := tryLocalMove_valid g fit s2 u m hu hpr hm
      refine ⟨partitionInRange_performMove g s2 m hpr hval.2.1, ?_, htot⟩
      rw [sum_clusterVolume_performMove g s2 m hval.1 hval.2.1 hval.2.2]
      exact hsum
  | syncStep s2 order _ hord ih =>
      obtain ⟨hpr, hsum, htot⟩ := ih
      have hvalid : ∀ m2 ∈ order.filterMap (fun v => tryLocalMove g fit s2 v),
          m2.originCluster < g.n ∧ m2.targetCluster < g.n := by
        intro m2 hm2
        obtain ⟨v, hvord, hv⟩ := List.mem_filterMap.mp hm2
        have hval := tryLocalMove_valid g fit s2 v m2 (hord v hvord) hpr hv
        exact ⟨hval.1, hval.2.1⟩
      refine ⟨?_, ?_, htot⟩
      · intro v hv
        exact partitionInRange_applyPartitionUpdates g
          (order.filterMap (fun v2 => tryLocalMove g fit s2 v2)) s2.partition hpr
          (fun m2 h2 => (hvalid m2 h2).2) v hv
      · show Finset.sum (Finset.range g.n)
          (fun c => s2.clusterVolume c
            + volumeDelta (order.filterMap (fun v => tryLocalMove g fit s2 v)) c)
          = s2.totalVolume
        rw [Finset.sum_add_distrib, sum_volumeDelta_eq_zero g _ hvalid, add_zero]
        exact hsum

/-- C1. After the initialization and after each applied move, under any of
the three strategies, the sum over the cluster range of ClusterVolume equals
the maintained TotalVolume, and TotalVolume equals the total volume computed
directly from the graph (sum over nodes of weighted degree plus twice the
self-loop weight), which no operation after initialization ever changes. -/
theorem cluster_volume_sum_invariant (g : Graph) (fit : Fitness)
    (s : LMEState) (h : Reachable g fit s) :
    Finset.sum (Finset.range g.n) s.clusterVolume = s.totalVolume ∧
    s.totalVolume = graphTotalVolume g :=
  ⟨(reachable_goodState g fit s h).2.1, (reachable_goodState g fit s h).2.2⟩

/-- Witness for C1: on the concrete three-node graph, the state after one
stale-synchronous pass from the initialized state satisfies both volume
equalities. -/
theorem cluster_volume_sum_invariant_witness :
    Finset.sum (Finset.range twoPathGraph.n)
      ((synchronousLocalMoving twoPathGraph zeroFitness [0, 1, 2]
        (calculateInitialClusterCutAndVolume twoPathGraph)).1).clusterVolume
      = ((synchronousLocalMoving twoPathGraph zeroFitness [0, 1, 2]
        (calculateInitialClusterCutAndVolume twoPathGraph)).1).totalVolume ∧
    ((synchronousLocalMoving twoPathGraph zeroFitness [0, 1, 2]
      (calculateInitialClusterCutAndVolume twoPathGraph)).1).totalVolume
      = graphTotalVolume twoPathGraph :=
  cluster_volume_sum_invariant twoPathGraph zeroFitness _
    (Reachable.syncStep _ [0, 1, 2] Reachable.init (by decide))

/-- Modelled from the spec: checked division over the exact embedding of
doubles; none marks an IEEE division by zero. -/
def cdiv (a b : ℚ) : Option ℚ :=
  if b = 0 then none else some (a / b)

/-- Modelled from the spec: checked logarithm over an abstract real logarithm
rlog; none marks a non-positive argument, where the IEEE log would produce
minus infinity or NaN. -/
def clog (rlog : ℚ → ℚ) (x : ℚ) : Option ℚ :=
  if x ≤ 0 then none else some (rlog x)

/-- Modelled from the spec: the probability-like term p·log p with
p = w / TotalVolume used by the fitness evaluator (section 4.3), under the
0·log 0 = 0 convention: a term whose numerator or denominator is not strictly
positive is defined to contribute zero and in particular performs no division
and takes no logarithm (sections 4.3 and 7). -/
def plogpRel (rlog : ℚ → ℚ) (totalVolume w : ℚ) : Option ℚ :=
  if 0 < w ∧ 0 < totalVolume then do
    let p ← cdiv w totalVolume
    let l ← clog rlog p
    pure (p * l)
  else pure 0

/-- Modelled from the spec: fitnessChange (header lines 111-113, body not
under src/): the partial map-equation delta of hypothetically moving the node
from currentCluster to targetCluster, composed of the probability-like
plogpRel terms of the total cut and of the cut and cut-plus-volume quantities
of the two clusters, with terms constant over all candidate targets dropped
(section 4.3).  Every numerically hazardous operation goes through the
checked cdiv and clog, so a some result certifies absence of division by zero
and of NaN propagation. -/
def fitnessChange (rlog : ℚ → ℚ) (s : LMEState) (_u : node)
    (degree loopWeight : ℚ) (currentCluster targetCluster : node)
    (weightToTarget weightToCurrent totalCutCurrently : ℚ) : Option ℚ :=
  let cutC := s.clusterCut currentCluster
  let volC := s.clusterVolume currentCluster
  let cutT := s.clusterCut targetCluster
  let volT := s.clusterVolume targetCluster
  let cutDifferenceCurrent := 2 * weightToCurrent - degree - 2 * loopWeight
  let cutDifferenceTarget := degree + 2 * loopWeight - 2 * weightToTarget
  let totalCutNew :=
    if currentCluster = targetCluster then totalCutCurrently
    else totalCutCurrently + cutDifferenceCurrent + cutDifferenceTarget
  do
    let a ← plogpRel rlog s.totalVolume totalCutNew
    let b ← plogpRel rlog s.totalVolume totalCutCurrently
    let c ← plogpRel rlog s.totalVolume (cutT + cutDifferenceTarget)
    let d ← plogpRel rlog s.totalVolume cutT
    let e ← plogpRel rlog s.totalVolume (cutC + cutDifferenceCurrent)
    let f ← plogpRel rlog s.totalVolume cutC
    let gT ← plogpRel rlog s.totalVolume
      (cutT + cutDifferenceTarget + volT + degree + 2 * loopWeight)
    let hT ← plogpRel rlog s.totalVolume (cutT + volT)
    let iC ← plogpRel rlog s.totalVolume
      (cutC + cutDifferenceCurrent + volC - degree - 2 * loopWeight)
    let jC ← plogpRel rlog s.totalVolume (cutC + volC)
    pure ((a - b) - 2 * ((c - d) + (e - f)) + ((gT - hT) + (iC - jC)))

/-- The probability-like term always evaluates: either both numerator and
denominator are strictly positive, making the division and logarithm safe, or
the zero convention applies. -/
theorem plogpRel_isSome (rlog : ℚ → ℚ) (tv w : ℚ) :
    ∃ y, plogpRel rlog tv w = some y := by
  unfold plogpRel
  by_cases h : 0 < w ∧ 0 < tv
  · rw [if_pos h]
    have htv : tv ≠ 0 := ne_of_gt h.2
    have hp : 0 < w / tv := div_pos h.1 h.2
    refine ⟨(w / tv) * rlog (w / tv), ?_⟩
    simp [cdiv, clog, htv, not_le.mpr hp]
  · rw [if_neg h]
    exact ⟨0, rfl⟩

/-- A bind of evaluating options evaluates. -/
theorem bind_total {α β : Type} (x : Option α) (f : α → Option β)
    (hx : ∃ a, x = some a) (hf : ∀ a, ∃ b, f a = some b) :
    ∃ b, (x >>= f) = some b := by
  obtain ⟨a, ha⟩ := hx
  rw [ha]
  simpa using hf a

/-- C7. For every input to fitnessChange, including inputs whose origin
cluster, target cluster or graph totals carry zero (or even negative) volume
or cut, the evaluation completes with a finite rational value: no checked
operation reports a division by zero or a NaN.  Moreover the probability-like
term at zero contributes exactly zero. -/
theorem fitnessChange_total (rlog : ℚ → ℚ) (s : LMEState) (u : node)
    (degree loopWeight : ℚ) (currentCluster targetCluster : node)
    (weightToTarget weightToCurrent totalCutCurrently : ℚ) :
    (∃ y, fitnessChange rlog s u degree loopWeight currentCluster
      targetCluster weightToTarget weightToCurrent totalCutCurrently = some y) ∧
    (∀ tv, plogpRel rlog tv 0 = some 0) := by
  constructor
  · simp only [fitnessChange]
    refine bind_total _ _ (plogpRel_isSome _ _ _) fun a => ?_
    refine bind_total _ _ (plogpRel_isSome _ _ _) fun b => ?_
    refine bind_total _ _ (plogpRel_isSome _ _ _) fun c => ?_
    refine bind_total _ _ (plogpRel_isSome _ _ _) fun d => ?_
    refine bind_total _ _ (plogpRel_isSome _ _ _) fun e => ?_
    refine bind_total _ _ (plogpRel_isSome _ _ _) fun f => ?_
    refine bind_total _ _ (plogpRel_isSome _ _ _) fun gT => ?_
    refine bind_total _ _ (plogpRel_isSome _ _ _) fun hT => ?_
    refine bind_total _ _ (plogpRel_isSome _ _ _) fun iC => ?_
    refine bind_total _ _ (plogpRel_isSome _ _ _) fun jC => ?_
    exact ⟨_, rfl⟩
  · intro tv
    simp [plogpRel]

end NetworKit
